import Mathlib

/-!
Verification of `dircat.py`, a directory content concatenator: it walks a
directory tree, prunes hidden and excluded directories, selects files by
glob patterns, sorts the selected records by relative path and emits each
file as a fenced Markdown block.

The embedding works at the level of Unicode code points (`Char` lists), the
level at which CPython performs its string operations.  Python library
functions used by the script (`str.split`, `str.strip`, `fnmatch.fnmatch`,
`pathlib` suffix and name handling) are translated here as executable
structural functions on `List Char` so that every definition evaluates by
kernel reduction.
-/

namespace Dircat

/-! ### Python string primitives -/

/-- Whitespace characters stripped by Python `str.strip()` (the ASCII ones;
the script only ever strips ASCII whitespace around glob patterns). -/
def isPySpace (c : Char) : Bool :=
  c == ' ' || c == '\t' || c == '\n' || c == '\r' || c == '\x0b' || c == '\x0c'

/-- Python `str.strip()`: drop leading and trailing whitespace. -/
def pyStrip (s : String) : String :=
  ⟨((s.data.dropWhile isPySpace).reverse.dropWhile isPySpace).reverse⟩

/-- Splitting a character list at every occurrence of `sep`, keeping empty
segments, as Python `str.split(sep)` does for a one-character separator. -/
def splitOnCharAux (sep : Char) : List Char → List (List Char)
  | [] => [[]]
  | c :: cs =>
      let r := splitOnCharAux sep cs
      if c == sep then [] :: r
      else
        match r with
        | [] => [[c]]
        | g :: gs => (c :: g) :: gs

/-- Python `s.split(sep)` for a one-character separator: `"".split(",") = [""]`,
empty segments are kept. -/
def splitOnChar (sep : Char) (s : String) : List String :=
  (splitOnCharAux sep s.data).map (fun cs => ⟨cs⟩)

/-- Python `s.startswith(t)`. -/
def pyStartsWith (s t : String) : Bool :=
  t.data.isPrefixOf s.data

/-- Python `s.endswith(t)`. -/
def pyEndsWith (s t : String) : Bool :=
  t.data.isSuffixOf s.data

/-- Python `s.lower()` (ASCII case folding; every key of the extension table
is ASCII). -/
def pyLower (s : String) : String :=
  ⟨s.data.map Char.toLower⟩

/-! ### `fnmatch` glob matching

`fnmatch.fnmatch(name, pattern)` translates the pattern into a regular
expression: `*` matches any character sequence, `?` any single character,
`[...]` a character class (leading `!` negates, a `]` directly after the
opening bracket or the `!` is a literal member, `a-b` is a code point
range, an unterminated `[` is a literal).  On POSIX `os.path.normcase` is
the identity, so matching is case sensitive.  The matcher below follows the
translation in `fnmatch.translate`; a fuel argument makes the recursion
structural, and the initial fuel `pattern length + text length + 1` is
ample because every recursive call shrinks that sum. -/

/-- Membership test of a character in the body of a `[...]` class: `a-b`
spans the code point range, other characters are literal, a trailing `-` is
literal, and a reversed range such as `z-a` is empty. -/
def charInClass (c : Char) : List Char → Bool
  | a :: '-' :: b :: rest =>
      (a.toNat ≤ c.toNat && c.toNat ≤ b.toNat) || charInClass c rest
  | a :: rest => (a == c) || charInClass c rest
  | [] => false

/-- Scan for the `]` closing a character class, returning the class body and
the remaining pattern; `none` when the class is unterminated. -/
def breakClose : List Char → Option (List Char × List Char)
  | [] => none
  | ']' :: rest => some ([], rest)
  | c :: rest =>
      match breakClose rest with
      | none => none
      | some x => some (c :: x.1, x.2)

/-- Parsing of a class body after the opening bracket (and after a possible
negation mark): a `]` in the first position belongs to the class. -/
def parseClassBody (ps : List Char) : Option (List Char × List Char) :=
  match ps with
  | ']' :: rest => (breakClose rest).map (fun x => (']' :: x.1, x.2))
  | _ => breakClose ps

/-- Parsing of the pattern right after an opening `[`: reports negation, the
class body and the remaining pattern, or `none` for an unterminated class. -/
def parseClass : List Char → Option (Bool × List Char × List Char)
  | '!' :: ps => (parseClassBody ps).map (fun x => (true, x.1, x.2))
  | ps => (parseClassBody ps).map (fun x => (false, x.1, x.2))

/-- Glob matching of a whole text against a whole pattern, with fuel. -/
def globAux : Nat → List Char → List Char → Bool
  | 0, _, _ => false
  | _ + 1, [], t => t.isEmpty
  | fuel + 1, '*' :: ps, t =>
      globAux fuel ps t ||
        (match t with
         | [] => false
         | _ :: ts => globAux fuel ('*' :: ps) ts)
  | fuel + 1, '?' :: ps, t =>
      (match t with
       | [] => false
       | _ :: ts => globAux fuel ps ts)
  | fuel + 1, '[' :: ps, t =>
      (match parseClass ps with
       | some x =>
           match t with
           | [] => false
           | c :: ts => (charInClass c x.2.1 != x.1) && globAux fuel x.2.2 ts
       | none =>
           match t with
           | [] => false
           | c :: ts => (c == '[') && globAux fuel ps ts)
  | fuel + 1, p :: ps, t =>
      (match t with
       | [] => false
       | c :: ts => (c == p) && globAux fuel ps ts)

/-- Glob matching with ample fuel. -/
def globMatch (pat text : List Char) : Bool :=
  globAux (pat.length + text.length + 1) pat text

/-- Python `fnmatch.fnmatch(name, pattern)` (POSIX: case sensitive,
whole-string match). -/
def fnmatch (name pat : String) : Bool :=
  globMatch pat.data name.data

/-- The helper `matches_any(text, patterns)` of `dircat.py`. -/
def matchesAny (text : String) (patterns : List String) : Bool :=
  patterns.any (fun p => fnmatch text p)

end Dircat

namespace Dircat

/-! ### The directory tree model

A directory listing is modelled in first-child next-sibling form: `Fs.nil`
is the empty listing, `Fs.file n c rest` a file entry followed by its
siblings, `Fs.dir n children rest` a subdirectory entry.  A file's content
is the outcome of reading it: `Except.ok text` for a successful read
(decoding with replacement never fails, so any readable file yields a
string) and `Except.error e` when `open`/`read` raises an exception whose
message is `e`. -/

inductive Fs where
  | nil : Fs
  | file (name : String) (content : Except String String) (rest : Fs) : Fs
  | dir (name : String) (children : Fs) (rest : Fs) : Fs

/-- One collected file: the components of the directory chain below the scan
root, the bare filename, and the read outcome.  The code stores
`(full_path, rel_path)`; the relative path is `dirs ++ [fname]` joined with
forward slashes, and the full path is the scan root extended by the same
components, so the pair is determined by this data. -/
structure FileRecord where
  dirs : List String
  fname : String
  content : Except String String

/-- Joining path components with forward slashes, as `str()` of a relative
`pathlib` path does on POSIX. -/
def joinComps : List String → String
  | [] => ""
  | [c] => c
  | c :: c₂ :: cs => c ++ "/" ++ joinComps (c₂ :: cs)

/-- The forward-slash relative path of a record. -/
def relPath (r : FileRecord) : String :=
  joinComps (r.dirs ++ [r.fname])

/-- The full component list of a record's relative path. -/
def recComps (r : FileRecord) : List String :=
  r.dirs ++ [r.fname]

/-! ### Selection and pruning -/

/-- Pruning condition for a subdirectory named `d` whose parent directory
chain below the root is `comps` (lines 96 to 99 of `dircat.py`): hidden
name, or name, relative path or `./`-relative path matching an exclude
pattern. -/
def pruneDir (exc : List String) (comps : List String) (d : String) : Bool :=
  pyStartsWith d "." ||
    matchesAny d exc ||
    matchesAny (joinComps (comps ++ [d])) exc ||
    matchesAny ("./" ++ joinComps (comps ++ [d])) exc

/-- File selection condition (lines 112 to 115 of `dircat.py`): the bare
name matches an include pattern, and neither the bare name nor the relative
path matches an exclude pattern. -/
def keepFile (inc exc : List String) (comps : List String) (n : String) : Bool :=
  matchesAny n inc &&
    !(matchesAny n exc || matchesAny (joinComps (comps ++ [n])) exc)

/-- The records contributed by the files directly inside one directory
listing (`os.walk` yields the files of a directory before descending). -/
def collectHere (inc exc : List String) (comps : List String) : Fs → List FileRecord
  | .nil => []
  | .file n c rest =>
      (if keepFile inc exc comps n then [⟨comps, n, c⟩] else []) ++
        collectHere inc exc comps rest
  | .dir _ _ rest => collectHere inc exc comps rest

/-- The records contributed by the subdirectories of one directory listing:
a pruned subdirectory contributes nothing, an unpruned one contributes its
own files and then its subdirectories, recursively. -/
def collectSubs (inc exc : List String) (comps : List String) : Fs → List FileRecord
  | .nil => []
  | .file _ _ rest => collectSubs inc exc comps rest
  | .dir d des rest =>
      (if pruneDir exc comps d then []
       else collectHere inc exc (comps ++ [d]) des ++
         collectSubs inc exc (comps ++ [d]) des) ++
        collectSubs inc exc comps rest

/-- All records collected by walking one directory listing (the
`files_found` list of `process_directory` before sorting, for the walk
rooted at that listing). -/
def collectDir (inc exc : List String) (comps : List String) (es : Fs) : List FileRecord :=
  collectHere inc exc comps es ++ collectSubs inc exc comps es

/-! ### Sorting

`files_found.sort(key=lambda x: x[1])` sorts by the relative `pathlib`
path object.  On CPython 3.11 (the interpreter of this environment)
`PurePath.__lt__` compares the `_parts` lists, that is the tuples of path
components, componentwise, with components compared as Python strings by
code point.  (CPython 3.12 changed this to comparison of the joined path
string; the two orders differ when component boundaries are involved, for
example `a/x` sorts before `a.b/c` as parts but after it as strings.)
`list.sort` is a stable sort, and insertion by a total preorder is
stable. -/

/-- Strict code point lexicographic order on character lists, the order of
Python string comparison. -/
def lexLt : List Char → List Char → Bool
  | [], [] => false
  | [], _ :: _ => true
  | _ :: _, [] => false
  | a :: as, b :: bs =>
      if a.toNat < b.toNat then true
      else if b.toNat < a.toNat then false
      else lexLt as bs

/-- Strict code point lexicographic order on strings, the order of Python
string comparison. -/
def strLt (s t : String) : Bool :=
  lexLt s.data t.data

/-- Strict lexicographic order on component lists, the order of Python list
(and `pathlib` parts tuple) comparison with strings as elements. -/
def compsLt : List String → List String → Bool
  | [], [] => false
  | [], _ :: _ => true
  | _ :: _, [] => false
  | a :: as, b :: bs =>
      if lexLt a.data b.data then true
      else if lexLt b.data a.data then false
      else compsLt as bs

/-- The sort relation: record `a` may stay before record `b` when `b`'s
relative path is not strictly below `a`'s in `pathlib` path order. -/
def relLe (a b : FileRecord) : Prop :=
  compsLt (recComps b) (recComps a) = false

instance : DecidableRel relLe :=
  fun _ _ => inferInstanceAs (Decidable (_ = false))

/-- The sorted record list (line 119 of `dircat.py`). -/
def sortRecords (rs : List FileRecord) : List FileRecord :=
  List.insertionSort relLe rs

/-! ### Language hints -/

/-- The extension table of `get_language_hint`, in source order. -/
def extTable : List (String × String) :=
  [(".py", "python"), (".js", "javascript"), (".ts", "typescript"),
   (".jsx", "jsx"), (".tsx", "tsx"), (".java", "java"), (".c", "c"),
   (".cpp", "cpp"), (".cs", "csharp"), (".php", "php"), (".rb", "ruby"),
   (".go", "go"), (".rs", "rust"), (".kt", "kotlin"), (".swift", "swift"),
   (".m", "objectivec"), (".scala", "scala"), (".sh", "bash"),
   (".bash", "bash"), (".zsh", "zsh"), (".fish", "fish"),
   (".ps1", "powershell"), (".r", "r"), (".R", "r"), (".sql", "sql"),
   (".html", "html"), (".htm", "html"), (".xml", "xml"), (".css", "css"),
   (".scss", "scss"), (".sass", "sass"), (".less", "less"),
   (".json", "json"), (".yaml", "yaml"), (".yml", "yaml"),
   (".toml", "toml"), (".ini", "ini"), (".cfg", "ini"), (".conf", "conf"),
   (".md", "markdown"), (".markdown", "markdown"), (".rst", "rst"),
   (".tex", "latex")]

/-- The final component of a slash-separated path, as `pathlib` `name`
(relative paths produced by the walk never end in a slash). -/
def pathName (s : String) : String :=
  (splitOnChar '/' s).getLastD ""

/-- The `pathlib` `suffix` of a final path component: the segment from the
last dot on, provided that dot is neither the first nor the last character
(so `.bashrc` and `name.` have no suffix). -/
def pathSuffix (name : String) : String :=
  match name.data.reverse.findIdx? (fun c => c == '.') with
  | none => ""
  | some j =>
      let i := name.data.length - 1 - j
      if 0 < i ∧ i < name.data.length - 1 then ⟨name.data.drop i⟩ else ""

/-- The function `get_language_hint(filename)` of `dircat.py`: the
lower-cased extension of the final component, looked up in the table,
defaulting to the empty tag. -/
def languageHint (filename : String) : String :=
  ((extTable.lookup (pyLower (pathSuffix (pathName filename)))).getD "")

/-! ### Output emission

Each `print(x)` writes `x` followed by one newline to its stream; the
whole run's standard output and standard error are the concatenations of
these writes, modelled per record as a pair of chunks. -/

/-- Appending one `print` call to an output buffer. -/
def printStr (out s : String) : String :=
  out ++ s ++ "\n"

/-- The standard output and standard error contributions of one record
(lines 122 to 152 of `dircat.py`).  The `try` block wraps the read and all
success-path printing, so on a read failure nothing of the success path is
printed; the `except` branch prints the diagnostic to the error stream and
a bare fenced placeholder block.  `isLast` tells whether the separator
(blank line, `---`, blank line) follows. -/
def emitRecord (isLast : Bool) (r : FileRecord) : String × String :=
  match r.content with
  | .ok content =>
      let o := printStr "" ("### " ++ relPath r)
      let o := printStr o ""
      let o := printStr o ("```" ++ languageHint (relPath r))
      let o := printStr o content
      let o := if pyEndsWith content "\n" then o else printStr o ""
      let o := printStr o "```"
      let o := if isLast then o else printStr (printStr (printStr o "") "---") ""
      (o, "")
  | .error e =>
      let err := printStr "" ("Error reading " ++ relPath r ++ ": " ++ e)
      let o := printStr "" "```"
      let o := printStr o ("[Error reading file: " ++ e ++ "]")
      let o := printStr o "```"
      let o := if isLast then o else printStr (printStr (printStr o "") "---") ""
      (o, err)

/-- The per-record output chunks of the emission loop; the separator is
printed for every record except the last (`i < len(files_found) - 1`). -/
def emitChunks : List FileRecord → List (String × String)
  | [] => []
  | [r] => [emitRecord true r]
  | r :: r₂ :: rest => emitRecord false r :: emitChunks (r₂ :: rest)

/-- The full standard output and standard error of the emission loop. -/
def emitAll (rs : List FileRecord) : String × String :=
  (String.join ((emitChunks rs).map Prod.fst),
   String.join ((emitChunks rs).map Prod.snd))

/-- The sorted record list that the emission loop of
`process_directory(directory, ...)` iterates over, for a root directory
with listing `es`. -/
def outputRecords (es : Fs) (inc exc : List String) : List FileRecord :=
  sortRecords (collectDir inc exc [] es)

/-- The function `process_directory` of `dircat.py` for a root directory
whose bare name is `rootName` and whose listing is `es`, returning the
standard output and standard error text.  `os.walk(base_path)` starts
inside the root, so `rootName` is never consulted. -/
def processDirectory (rootName : String) (es : Fs) (inc exc : List String) :
    String × String :=
  emitAll (outputRecords es inc exc)

/-! ### The command line entry point -/

/-- Outcome of a run: the process exit code and the text written to the two
streams. -/
structure RunResult where
  exitCode : Nat
  stdout : String
  stderr : String

/-- The function `main()` of `dircat.py` after argument parsing.
`resolved` is the root directory listing paired with its bare name when
`os.path.isdir` holds for the (home-expanded) directory argument `dirStr`,
and `none` otherwise.  `patternsArg` is the comma-separated include string
and `excludes` the collected `--exclude` patterns. -/
def mainRun (resolved : Option (String × Fs)) (dirStr : String)
    (patternsArg : String) (excludes : List String) : RunResult :=
  match resolved with
  | none => ⟨1, "", printStr "" ("Error: " ++ dirStr ++ " is not a valid directory")⟩
  | some root =>
      let patterns := (splitOnChar ',' patternsArg).map pyStrip
      if patterns.isEmpty || patterns.all (fun p => p == "") then
        ⟨1, "", printStr "" "Error: No patterns specified"⟩
      else
        let oe := processDirectory root.1 root.2 patterns excludes
        ⟨0, oe.1, oe.2⟩

/-! ### Well-formed directory listings

Real filesystems guarantee that sibling entries have pairwise distinct
names and that entry names are nonempty and free of the path separator.
Claims about relative path ordering need exactly these facts. -/

/-- A legal entry name: nonempty and never containing the separator. -/
def goodName (n : String) : Bool :=
  decide (n ≠ "") && n.data.all (fun c => decide (c ≠ '/'))

/-- Whether some sibling entry of a listing bears the name `n`. -/
def entHasName (n : String) : Fs → Bool
  | .nil => false
  | .file m _ rest => decide (m = n) || entHasName n rest
  | .dir m _ rest => decide (m = n) || entHasName n rest

/-- Well-formedness of a directory listing: names are legal, siblings have
distinct names, and subdirectory listings are well-formed. -/
def wfFs : Fs → Bool
  | .nil => true
  | .file n _ rest => goodName n && !entHasName n rest && wfFs rest
  | .dir d des rest => goodName d && !entHasName d rest && wfFs des && wfFs rest

/-- A file entry with name `n` and read outcome `c` occurs in a listing. -/
inductive FileAmong (n : String) (c : Except String String) : Fs → Prop
  | here (rest : Fs) : FileAmong n c (.file n c rest)
  | skipFile (m : String) (x : Except String String) (rest : Fs) :
      FileAmong n c rest → FileAmong n c (.file m x rest)
  | skipDir (m : String) (des : Fs) (rest : Fs) :
      FileAmong n c rest → FileAmong n c (.dir m des rest)

/-- A subdirectory entry with name `d` and listing `des` occurs in a
listing. -/
inductive DirAmong (d : String) (des : Fs) : Fs → Prop
  | here (rest : Fs) : DirAmong d des (.dir d des rest)
  | skipFile (m : String) (x : Except String String) (rest : Fs) :
      DirAmong d des rest → DirAmong d des (.file m x rest)
  | skipDir (m : String) (des₂ : Fs) (rest : Fs) :
      DirAmong d des rest → DirAmong d des (.dir m des₂ rest)

/-- The walk reaches a directory listing along a chain of unpruned
subdirectories: `Reaches exc rootEs comps es` holds when starting from the
root listing `rootEs` the walk enters, step by step and never pruned, the
directory whose chain of names below the root is `comps` and whose listing
is `es`. -/
inductive Reaches (exc : List String) (rootEs : Fs) : List String → Fs → Prop
  | refl : Reaches exc rootEs [] rootEs
  | step (comps : List String) (es : Fs) (d : String) (des : Fs) :
      Reaches exc rootEs comps es →
      DirAmong d des es →
      pruneDir exc comps d = false →
      Reaches exc rootEs (comps ++ [d]) des

/-- Occurrence of `t` as a contiguous substring of `s`. -/
def strContains (s t : String) : Prop :=
  ∃ u v, s = u ++ t ++ v

end Dircat

namespace Dircat

/-! ### Basic string lemmas -/

theorem stringExt {s t : String} (h : s.data = t.data) : s = t := by
  cases s
  cases t
  exact congrArg String.mk h

@[simp] theorem dataAppend (s t : String) : (s ++ t).data = s.data ++ t.data := rfl

theorem dataNeNilOfNe {s : String} (h : s ≠ "") : s.data ≠ [] := by
  intro hd
  exact h (stringExt hd)

/-! ### Order lemmas for `lexLt` and `compsLt` -/

theorem charToNatInj {a b : Char} (h : a.toNat = b.toNat) : a = b := by
  apply Char.ext
  apply UInt32.ext
  simpa [Char.toNat] using h

theorem lexLt_cons (a b : Char) (as bs : List Char) :
    lexLt (a :: as) (b :: bs) =
      if a.toNat < b.toNat then true
      else if b.toNat < a.toNat then false
      else lexLt as bs := rfl

theorem lexLt_trans {x y z : List Char} (hxy : lexLt x y = true)
    (hyz : lexLt y z = true) : lexLt x z = true := by
  induction x generalizing y z with
  | nil =>
      cases y with
      | nil => simp [lexLt] at hxy
      | cons b bs =>
          cases z with
          | nil => simp [lexLt] at hyz
          | cons c cs => simp [lexLt]
  | cons a as ih =>
      cases y with
      | nil => simp [lexLt] at hxy
      | cons b bs =>
          cases z with
          | nil => simp [lexLt] at hyz
          | cons c cs =>
              rw [lexLt_cons] at hxy hyz ⊢
              rcases Nat.lt_trichotomy a.toNat b.toNat with hab | hab | hab
              · rcases Nat.lt_trichotomy b.toNat c.toNat with hbc | hbc | hbc
                · simp [show a.toNat < c.toNat from by omega]
                · simp [show a.toNat < c.toNat from by omega]
                · rw [if_neg (by omega), if_pos hbc] at hyz
                  exact absurd hyz (by simp)
              · rcases Nat.lt_trichotomy b.toNat c.toNat with hbc | hbc | hbc
                · simp [show a.toNat < c.toNat from by omega]
                · rw [if_neg (by omega), if_neg (by omega)] at hxy hyz ⊢
                  exact ih hxy hyz
                · rw [if_neg (by omega), if_pos hbc] at hyz
                  exact absurd hyz (by simp)
              · rw [if_neg (by omega), if_pos hab] at hxy
                exact absurd hxy (by simp)

theorem lexLt_eq_of_not {x y : List Char} (hxy : lexLt x y = false)
    (hyx : lexLt y x = false) : x = y := by
  induction x generalizing y with
  | nil =>
      cases y with
      | nil => rfl
      | cons b bs => simp [lexLt] at hxy
  | cons a as ih =>
      cases y with
      | nil => simp [lexLt] at hyx
      | cons b bs =>
          rw [lexLt_cons] at hxy hyx
          rcases Nat.lt_trichotomy a.toNat b.toNat with hab | hab | hab
          · rw [if_pos hab] at hxy
            exact absurd hxy (by simp)
          · rw [if_neg (by omega), if_neg (by omega)] at hxy hyx
            rw [charToNatInj hab, ih hxy hyx]
          · rw [if_pos hab] at hyx
            exact absurd hyx (by simp)

theorem lexLt_asymm {x y : List Char} (h : lexLt x y = true) : lexLt y x = false := by
  induction x generalizing y with
  | nil =>
      cases y with
      | nil => simp [lexLt] at h
      | cons b bs => simp [lexLt]
  | cons a as ih =>
      cases y with
      | nil => simp [lexLt] at h
      | cons b bs =>
          rw [lexLt_cons] at h ⊢
          rcases Nat.lt_trichotomy a.toNat b.toNat with hab | hab | hab
          · rw [if_neg (by omega), if_pos hab]
          · rw [if_neg (by omega), if_neg (by omega)] at h ⊢
            exact ih h
          · rw [if_neg (by omega), if_pos hab] at h
            exact absurd h (by simp)

theorem compsLt_cons (a b : String) (as bs : List String) :
    compsLt (a :: as) (b :: bs) =
      if lexLt a.data b.data then true
      else if lexLt b.data a.data then false
      else compsLt as bs := rfl

theorem compsLt_trans {x y z : List String} (hxy : compsLt x y = true)
    (hyz : compsLt y z = true) : compsLt x z = true := by
  induction x generalizing y z with
  | nil =>
      cases y with
      | nil => simp [compsLt] at hxy
      | cons b bs =>
          cases z with
          | nil => simp [compsLt] at hyz
          | cons c cs => simp [compsLt]
  | cons a as ih =>
      cases y with
      | nil => simp [compsLt] at hxy
      | cons b bs =>
          cases z with
          | nil => simp [compsLt] at hyz
          | cons c cs =>
              rw [compsLt_cons] at hxy hyz ⊢
              by_cases hab : lexLt a.data b.data = true
              · by_cases hbc : lexLt b.data c.data = true
                · simp [lexLt_trans hab hbc]
                · rw [if_neg hbc] at hyz
                  by_cases hcb : lexLt c.data b.data = true
                  · rw [if_pos hcb] at hyz
                    exact absurd hyz (by simp)
                  · rw [if_neg hcb] at hyz
                    have : b = c := stringExt
                      (lexLt_eq_of_not (by simp_all) (by simp_all))
                    subst this
                    simp [hab]
              · by_cases hba : lexLt b.data a.data = true
                · rw [if_neg hab, if_pos hba] at hxy
                  exact absurd hxy (by simp)
                · rw [if_neg hab, if_neg hba] at hxy
                  have : a = b := stringExt
                    (lexLt_eq_of_not (by simp_all) (by simp_all))
                  subst this
                  by_cases hac : lexLt a.data c.data = true
                  · simp [hac]
                  · by_cases hca : lexLt c.data a.data = true
                    · rw [if_neg hac, if_pos hca] at hyz
                      exact absurd hyz (by simp)
                    · rw [if_neg hac, if_neg hca] at hyz ⊢
                      exact ih hxy hyz

theorem compsLt_eq_of_not {x y : List String} (hxy : compsLt x y = false)
    (hyx : compsLt y x = false) : x = y := by
  induction x generalizing y with
  | nil =>
      cases y with
      | nil => rfl
      | cons b bs => simp [compsLt] at hxy
  | cons a as ih =>
      cases y with
      | nil => simp [compsLt] at hyx
      | cons b bs =>
          rw [compsLt_cons] at hxy hyx
          by_cases hab : lexLt a.data b.data = true
          · rw [if_pos hab] at hxy
            exact absurd hxy (by simp)
          · by_cases hba : lexLt b.data a.data = true
            · rw [if_pos hba] at hyx
              exact absurd hyx (by simp)
            · rw [if_neg hab, if_neg hba] at hxy hyx
              have : a = b := stringExt
                (lexLt_eq_of_not (by simp_all) (by simp_all))
              rw [this, ih hxy hyx]

theorem compsLt_irrefl (x : List String) : compsLt x x = false := by
  induction x with
  | nil => rfl
  | cons a as ih =>
      rw [compsLt_cons]
      by_cases h : lexLt a.data a.data = true
      · have := lexLt_asymm h
        simp_all
      · rw [if_neg h, if_neg h]
        exact ih

theorem compsLt_asymm {x y : List String} (h : compsLt x y = true) :
    compsLt y x = false := by
  cases hyx : compsLt y x
  · rfl
  · have := compsLt_trans h hyx
    rw [compsLt_irrefl x] at this
    exact absurd this (by simp)

end Dircat

namespace Dircat

/-! ### Membership lemmas for the walk -/

theorem fileAmong_hasName {n : String} {c : Except String String} {es : Fs}
    (h : FileAmong n c es) : entHasName n es = true := by
  induction h with
  | here rest => simp [entHasName]
  | skipFile m x rest _ ih => simp [entHasName, ih]
  | skipDir m des rest _ ih => simp [entHasName, ih]

theorem dirAmong_hasName {d : String} {des : Fs} {es : Fs}
    (h : DirAmong d des es) : entHasName d es = true := by
  induction h with
  | here rest => simp [entHasName]
  | skipFile m x rest _ ih => simp [entHasName, ih]
  | skipDir m des₂ rest _ ih => simp [entHasName, ih]

theorem mem_collectHere {inc exc comps : List String} {es : Fs} {r : FileRecord}
    (h : r ∈ collectHere inc exc comps es) :
    r.dirs = comps ∧ keepFile inc exc comps r.fname = true ∧
      FileAmong r.fname r.content es := by
  induction es with
  | nil => simp [collectHere] at h
  | file n c rest ih =>
      rw [collectHere] at h
      rcases List.mem_append.1 h with hl | hr
      · by_cases hk : keepFile inc exc comps n = true
        · rw [if_pos hk] at hl
          rcases List.mem_singleton.1 hl with rfl
          exact ⟨rfl, hk, FileAmong.here rest⟩
        · rw [if_neg hk] at hl
          simp at hl
      · obtain ⟨h1, h2, h3⟩ := ih hr
        exact ⟨h1, h2, FileAmong.skipFile n c rest h3⟩
  | dir d des rest ihd ihr =>
      rw [collectHere] at h
      obtain ⟨h1, h2, h3⟩ := ihr h
      exact ⟨h1, h2, FileAmong.skipDir d des rest h3⟩

theorem collectHere_complete {inc exc comps : List String} {es : Fs}
    {n : String} {c : Except String String} (h : FileAmong n c es)
    (hk : keepFile inc exc comps n = true) :
    (⟨comps, n, c⟩ : FileRecord) ∈ collectHere inc exc comps es := by
  induction h with
  | here rest =>
      rw [collectHere, if_pos hk]
      exact List.mem_append_left _ (List.mem_singleton.2 rfl)
  | skipFile m x rest _ ih =>
      rw [collectHere]
      exact List.mem_append_right _ ih
  | skipDir m des rest _ ih =>
      rw [collectHere]
      exact ih

theorem mem_collectSubs_keep {inc exc comps : List String} {es : Fs} {r : FileRecord}
    (h : r ∈ collectSubs inc exc comps es) :
    keepFile inc exc r.dirs r.fname = true := by
  induction es generalizing comps with
  | nil => simp [collectSubs] at h
  | file n c rest ih =>
      rw [collectSubs] at h
      exact ih h
  | dir d des rest ihd ihr =>
      rw [collectSubs] at h
      rcases List.mem_append.1 h with hl | hr
      · by_cases hp : pruneDir exc comps d = true
        · rw [if_pos hp] at hl
          simp at hl
        · rw [if_neg hp] at hl
          rcases List.mem_append.1 hl with hl₂ | hr₂
          · obtain ⟨h1, h2, _⟩ := mem_collectHere hl₂
            rw [h1]
            exact h2
          · exact ihd hr₂
      · exact ihr hr

theorem mem_collectDir_keep {inc exc comps : List String} {es : Fs} {r : FileRecord}
    (h : r ∈ collectDir inc exc comps es) :
    keepFile inc exc r.dirs r.fname = true := by
  rcases List.mem_append.1 h with hl | hr
  · obtain ⟨h1, h2, _⟩ := mem_collectHere hl
    rw [h1]
    exact h2
  · exact mem_collectSubs_keep hr

theorem mem_collectSubs_shape {inc exc comps : List String} {es : Fs} {r : FileRecord}
    (h : r ∈ collectSubs inc exc comps es) :
    ∃ d suf, r.dirs = comps ++ d :: suf ∧ entHasName d es = true := by
  induction es generalizing comps with
  | nil => simp [collectSubs] at h
  | file n c rest ih =>
      rw [collectSubs] at h
      obtain ⟨d, suf, h1, h2⟩ := ih h
      exact ⟨d, suf, h1, by simp [entHasName, h2]⟩
  | dir d des rest ihd ihr =>
      rw [collectSubs] at h
      rcases List.mem_append.1 h with hl | hr
      · by_cases hp : pruneDir exc comps d = true
        · rw [if_pos hp] at hl
          simp at hl
        · rw [if_neg hp] at hl
          rcases List.mem_append.1 hl with hl₂ | hr₂
          · obtain ⟨h1, _, _⟩ := mem_collectHere hl₂
            exact ⟨d, [], by simpa using h1, by simp [entHasName]⟩
          · obtain ⟨d₂, suf₂, h1, _⟩ := ihd hr₂
            refine ⟨d, d₂ :: suf₂, ?_, by simp [entHasName]⟩
            simpa using h1
      · obtain ⟨d₂, suf₂, h1, h2⟩ := ihr hr
        exact ⟨d₂, suf₂, h1, by simp [entHasName, h2]⟩

end Dircat

namespace Dircat

/-! ### The pruning invariant -/

theorem mem_collectSubs_chain {inc exc comps : List String} {es : Fs} {r : FileRecord}
    (h : r ∈ collectSubs inc exc comps es) :
    ∀ pre d tail, r.dirs = pre ++ d :: tail → comps.length ≤ pre.length →
      pruneDir exc pre d = false := by
  induction es generalizing comps with
  | nil => simp [collectSubs] at h
  | file n c rest ih =>
      rw [collectSubs] at h
      exact ih h
  | dir d₀ des rest ihd ihr =>
      rw [collectSubs] at h
      rcases List.mem_append.1 h with hl | hr
      · by_cases hp : pruneDir exc comps d₀ = true
        · rw [if_pos hp] at hl
          simp at hl
        · rw [if_neg hp] at hl
          intro pre d tail hdecomp hlen
          rcases List.mem_append.1 hl with hl₂ | hr₂
          · obtain ⟨h1, _, _⟩ := mem_collectHere hl₂
            rw [h1] at hdecomp
            have hlen₂ : pre.length = comps.length := by
              have := congrArg List.length hdecomp
              simp at this
              omega
            obtain ⟨hpre, htl⟩ := List.append_inj hdecomp (by omega)
            have hd : d₀ = d := by
              simpa using congrArg (fun l => l.headD "") htl
            rw [← hpre, ← hd]
            cases hpc : pruneDir exc comps d₀
            · rfl
            · exact absurd hpc hp
          · rcases Nat.lt_or_ge comps.length pre.length with hlt | hge
            · exact ihd hr₂ pre d tail hdecomp (by simpa using hlt)
            · have hlen₂ : pre.length = comps.length := by omega
              obtain ⟨d₂, suf₂, hshape, _⟩ := mem_collectSubs_shape hr₂
              rw [hshape] at hdecomp
              rw [List.append_assoc] at hdecomp
              obtain ⟨hpre, htl⟩ := List.append_inj hdecomp.symm (by omega)
              have hd : d₀ = d := by
                simpa using congrArg (fun l => l.headD "") htl.symm
              rw [hpre, ← hd]
              cases hpc : pruneDir exc comps d₀
              · rfl
              · exact absurd hpc hp
      · exact ihr hr

/-! ### Completeness of the walk along unpruned chains -/

theorem collectSubs_step {inc exc comps : List String} {es : Fs}
    {d : String} {des : Fs} {r : FileRecord} (hd : DirAmong d des es)
    (hp : pruneDir exc comps d = false)
    (hr : r ∈ collectDir inc exc (comps ++ [d]) des) :
    r ∈ collectSubs inc exc comps es := by
  induction hd with
  | here rest =>
      rw [collectSubs, if_neg (by simp [hp])]
      exact List.mem_append_left _ hr
  | skipFile m x rest _ ih =>
      rw [collectSubs]
      exact ih
  | skipDir m des₂ rest _ ih =>
      rw [collectSubs]
      exact List.mem_append_right _ ih

theorem reaches_complete {inc exc comps : List String} {rootEs es : Fs}
    {r : FileRecord} (hreach : Reaches exc rootEs comps es)
    (hr : r ∈ collectDir inc exc comps es) :
    r ∈ collectDir inc exc [] rootEs := by
  induction hreach with
  | refl => exact hr
  | step comps₂ es₂ d des hre hdm hp ih =>
      exact ih (List.mem_append_right _ (collectSubs_step hdm hp hr))

end Dircat

namespace Dircat

/-! ### Distinctness of collected relative paths -/

theorem crossHereSubs {inc exc comps : List String} {es : Fs} {a b : FileRecord}
    (ha : a ∈ collectHere inc exc comps es) (hb : b ∈ collectSubs inc exc comps es) :
    recComps a ≠ recComps b := by
  obtain ⟨h1, _, _⟩ := mem_collectHere ha
  obtain ⟨d, suf, h2, _⟩ := mem_collectSubs_shape hb
  intro he
  have hlen := congrArg List.length he
  simp [recComps, h1, h2] at hlen

theorem blockShape {inc exc comps : List String} {d : String} {des : Fs} {a : FileRecord}
    (ha : a ∈ collectHere inc exc (comps ++ [d]) des ++
      collectSubs inc exc (comps ++ [d]) des) :
    ∃ t, recComps a = comps ++ d :: t := by
  rcases List.mem_append.1 ha with h | h
  · obtain ⟨h1, _, _⟩ := mem_collectHere h
    exact ⟨[a.fname], by simp [recComps, h1]⟩
  · obtain ⟨d₂, suf₂, h1, _⟩ := mem_collectSubs_shape h
    refine ⟨d₂ :: (suf₂ ++ [a.fname]), ?_⟩
    simp [recComps, h1]

theorem herePairwise {inc exc : List String} (comps : List String) :
    ∀ {es : Fs}, wfFs es = true →
      (collectHere inc exc comps es).Pairwise (fun a b => recComps a ≠ recComps b) := by
  intro es
  induction es with
  | nil =>
      intro _
      simp [collectHere]
  | file n c rest ih =>
      intro hwf
      simp only [wfFs, Bool.and_eq_true, Bool.not_eq_true'] at hwf
      obtain ⟨⟨hg, hn⟩, hrest⟩ := hwf
      by_cases hk : keepFile inc exc comps n = true
      · rw [collectHere, if_pos hk]
        apply List.pairwise_append.2
        refine ⟨by simp, ih hrest, ?_⟩
        intro a ha b hb
        rcases List.mem_singleton.1 ha with rfl
        obtain ⟨hb1, _, hb3⟩ := mem_collectHere hb
        intro he
        simp only [recComps, hb1] at he
        have : n = b.fname := by
          have := List.append_cancel_left he
          simpa using this
        rw [this] at hn
        rw [fileAmong_hasName hb3] at hn
        exact absurd hn (by simp)
      · rw [collectHere, if_neg hk]
        simpa using ih hrest
  | dir d des rest ihd ihr =>
      intro hwf
      simp only [wfFs, Bool.and_eq_true, Bool.not_eq_true'] at hwf
      rw [collectHere]
      exact ihr hwf.2

theorem subsPairwise {inc exc : List String} :
    ∀ {es : Fs}, wfFs es = true → ∀ comps,
      (collectSubs inc exc comps es).Pairwise (fun a b => recComps a ≠ recComps b) := by
  intro es
  induction es with
  | nil =>
      intro _ comps
      simp [collectSubs]
  | file n c rest ih =>
      intro hwf comps
      simp only [wfFs, Bool.and_eq_true, Bool.not_eq_true'] at hwf
      rw [collectSubs]
      exact ih hwf.2 comps
  | dir d₀ des rest ihd ihr =>
      intro hwf comps
      simp only [wfFs, Bool.and_eq_true, Bool.not_eq_true'] at hwf
      obtain ⟨⟨⟨hg, hn⟩, hdes⟩, hrest⟩ := hwf
      by_cases hp : pruneDir exc comps d₀ = true
      · rw [collectSubs, if_pos hp]
        simpa using ihr hrest comps
      · rw [collectSubs, if_neg hp]
        apply List.pairwise_append.2
        refine ⟨?_, ihr hrest comps, ?_⟩
        · apply List.pairwise_append.2
          exact ⟨herePairwise (comps ++ [d₀]) hdes, ihd hdes (comps ++ [d₀]),
            fun a ha b hb => crossHereSubs ha hb⟩
        · intro a ha b hb
          obtain ⟨t, hA⟩ := blockShape ha
          obtain ⟨d₂, suf₂, hb1, hb2⟩ := mem_collectSubs_shape hb
          intro he
          rw [hA] at he
          have he₂ : comps ++ d₀ :: t = comps ++ d₂ :: (suf₂ ++ [b.fname]) := by
            rw [he]
            simp [recComps, hb1]
          have := List.append_cancel_left he₂
          have hd : d₀ = d₂ := by simpa using congrArg (fun l => l.headD "") this
          rw [hd, hb2] at hn
          exact absurd hn (by simp)

theorem collectDirPairwise {inc exc comps : List String} {es : Fs}
    (hwf : wfFs es = true) :
    (collectDir inc exc comps es).Pairwise (fun a b => recComps a ≠ recComps b) := by
  apply List.pairwise_append.2
  exact ⟨herePairwise comps hwf, subsPairwise hwf comps,
    fun a ha b hb => crossHereSubs ha hb⟩

end Dircat

namespace Dircat

/-! ### Properties of the sort -/

theorem sortRecords_pairwise (rs : List FileRecord) :
    (sortRecords rs).Pairwise relLe := by
  haveI : IsTotal FileRecord relLe := by
    constructor
    intro a b
    unfold relLe
    by_cases h : compsLt (recComps b) (recComps a) = true
    · right
      exact compsLt_asymm h
    · left
      cases hx : compsLt (recComps b) (recComps a)
      · rfl
      · exact absurd hx h
  haveI : IsTrans FileRecord relLe := by
    constructor
    intro a b c hab hbc
    unfold relLe at hab hbc ⊢
    cases hca : compsLt (recComps c) (recComps a)
    · rfl
    · exfalso
      by_cases h₁ : compsLt (recComps a) (recComps b) = true
      · have := compsLt_trans hca h₁
        simp_all
      · have hAB : recComps a = recComps b :=
          compsLt_eq_of_not (Bool.eq_false_iff.2 h₁) hab
        rw [hAB] at hca
        simp_all
  exact List.sorted_insertionSort relLe rs

theorem sortRecords_perm (rs : List FileRecord) : (sortRecords rs).Perm rs :=
  List.perm_insertionSort relLe rs

theorem mem_outputRecords {es : Fs} {inc exc : List String} {r : FileRecord} :
    r ∈ outputRecords es inc exc ↔ r ∈ collectDir inc exc [] es :=
  (sortRecords_perm (collectDir inc exc [] es)).mem_iff

theorem outputPairwiseLt {es : Fs} {inc exc : List String} (hwf : wfFs es = true) :
    (outputRecords es inc exc).Pairwise
      (fun a b => compsLt (recComps a) (recComps b) = true) := by
  have hsorted : (outputRecords es inc exc).Pairwise relLe :=
    sortRecords_pairwise (collectDir inc exc [] es)
  have hne : (outputRecords es inc exc).Pairwise
      (fun a b => recComps a ≠ recComps b) := by
    refine (List.Perm.pairwise_iff ?_ (sortRecords_perm (collectDir inc exc [] es))).2
      (collectDirPairwise hwf)
    intro x y h he
    exact h he.symm
  refine (hsorted.and hne).imp ?_
  intro a b hab
  obtain ⟨hle, hneq⟩ := hab
  unfold relLe at hle
  by_cases h : compsLt (recComps a) (recComps b) = true
  · exact h
  · exact absurd (compsLt_eq_of_not (Bool.eq_false_iff.2 h) hle) hneq

/-! ### Include lists acting identically -/

theorem keepFile_congr {inc₁ inc₂ exc comps : List String} {n : String}
    (hm : matchesAny n inc₁ = matchesAny n inc₂) :
    keepFile inc₁ exc comps n = keepFile inc₂ exc comps n := by
  unfold keepFile
  rw [hm]

theorem collectHere_congr {inc₁ inc₂ exc : List String}
    (hm : ∀ n, goodName n = true → matchesAny n inc₁ = matchesAny n inc₂) :
    ∀ {es : Fs}, wfFs es = true → ∀ comps,
      collectHere inc₁ exc comps es = collectHere inc₂ exc comps es := by
  intro es
  induction es with
  | nil =>
      intro _ comps
      rfl
  | file n c rest ih =>
      intro hwf comps
      simp only [wfFs, Bool.and_eq_true, Bool.not_eq_true'] at hwf
      obtain ⟨⟨hg, _⟩, hrest⟩ := hwf
      rw [collectHere, collectHere, keepFile_congr (hm n hg), ih hrest comps]
  | dir d des rest ihd ihr =>
      intro hwf comps
      simp only [wfFs, Bool.and_eq_true, Bool.not_eq_true'] at hwf
      rw [collectHere, collectHere, ihr hwf.2 comps]

theorem collectSubs_congr {inc₁ inc₂ exc : List String}
    (hm : ∀ n, goodName n = true → matchesAny n inc₁ = matchesAny n inc₂) :
    ∀ {es : Fs}, wfFs es = true → ∀ comps,
      collectSubs inc₁ exc comps es = collectSubs inc₂ exc comps es := by
  intro es
  induction es with
  | nil =>
      intro _ comps
      rfl
  | file n c rest ih =>
      intro hwf comps
      simp only [wfFs, Bool.and_eq_true, Bool.not_eq_true'] at hwf
      rw [collectSubs, collectSubs, ih hwf.2 comps]
  | dir d des rest ihd ihr =>
      intro hwf comps
      simp only [wfFs, Bool.and_eq_true, Bool.not_eq_true'] at hwf
      obtain ⟨⟨⟨hg, hn⟩, hdes⟩, hrest⟩ := hwf
      rw [collectSubs, collectSubs, ihr hrest comps,
        collectHere_congr hm hdes (comps ++ [d]), ihd hdes (comps ++ [d])]

theorem processDirectory_congr {inc₁ inc₂ exc : List String} {rn : String} {es : Fs}
    (hm : ∀ n, goodName n = true → matchesAny n inc₁ = matchesAny n inc₂)
    (hwf : wfFs es = true) :
    processDirectory rn es inc₁ exc = processDirectory rn es inc₂ exc := by
  unfold processDirectory outputRecords collectDir
  rw [collectHere_congr hm hwf [], collectSubs_congr hm hwf []]

theorem fnmatch_empty_pattern (n : String) : fnmatch n "" = n.data.isEmpty := by
  simp [fnmatch, globMatch, globAux]

end Dircat

namespace Dircat

/-! ### Emission lemmas -/

theorem stringJoin_cons (s : String) (l : List String) :
    String.join (s :: l) = s ++ String.join l := by
  have haux : ∀ (l₂ : List String) (init : String),
      l₂.foldl (· ++ ·) init = init ++ l₂.foldl (· ++ ·) "" := by
    intro l₂
    induction l₂ with
    | nil =>
        intro init
        apply stringExt
        simp
    | cons x xs ih =>
        intro init
        show xs.foldl (· ++ ·) (init ++ x) = init ++ (x :: xs).foldl (· ++ ·) ""
        rw [ih (init ++ x)]
        show init ++ x ++ xs.foldl (· ++ ·) "" = init ++ xs.foldl (· ++ ·) ("" ++ x)
        rw [ih ("" ++ x)]
        apply stringExt
        simp
  show (s :: l).foldl (· ++ ·) "" = s ++ l.foldl (· ++ ·) ""
  rw [show (s :: l).foldl (· ++ ·) "" = l.foldl (· ++ ·) ("" ++ s) from rfl,
    haux l ("" ++ s)]
  apply stringExt
  simp

theorem emitChunks_length (rs : List FileRecord) :
    (emitChunks rs).length = rs.length := by
  induction rs with
  | nil => rfl
  | cons r rest ih =>
      cases rest with
      | nil => rfl
      | cons r₂ t =>
          rw [emitChunks]
          simpa using ih

theorem emitRecord_ok_eq (isLast : Bool) (r : FileRecord) (content : String)
    (h : r.content = .ok content) :
    (emitRecord isLast r).1 =
      "### " ++ relPath r ++ "\n" ++ "\n" ++
        "```" ++ languageHint (relPath r) ++ "\n" ++
        content ++ "\n" ++
        (if pyEndsWith content "\n" then "" else "\n") ++
        "```" ++ "\n" ++
        (if isLast then "" else "\n" ++ "---" ++ "\n" ++ "\n") := by
  unfold emitRecord
  rw [h]
  cases hend : pyEndsWith content "\n" <;> cases isLast <;>
    (apply stringExt; simp [printStr, hend])

theorem emitRecord_error_fst (isLast : Bool) (r : FileRecord) (e : String)
    (h : r.content = .error e) :
    (emitRecord isLast r).1 =
      "```" ++ "\n" ++ "[Error reading file: " ++ e ++ "]" ++ "\n" ++ "```" ++ "\n" ++
        (if isLast then "" else "\n" ++ "---" ++ "\n" ++ "\n") := by
  unfold emitRecord
  rw [h]
  cases isLast <;> (apply stringExt; simp [printStr])

theorem emitRecord_error_snd (isLast : Bool) (r : FileRecord) (e : String)
    (h : r.content = .error e) :
    (emitRecord isLast r).2 = "Error reading " ++ relPath r ++ ": " ++ e ++ "\n" := by
  unfold emitRecord
  rw [h]
  apply stringExt
  simp [printStr]

theorem strContains_appendLeft {s t : String} (u : String) (h : strContains s t) :
    strContains (u ++ s) t := by
  obtain ⟨x, y, hxy⟩ := h
  exact ⟨u ++ x, y, by rw [hxy]; apply stringExt; simp⟩

theorem strContains_appendRight {s t : String} (v : String) (h : strContains s t) :
    strContains (s ++ v) t := by
  obtain ⟨x, y, hxy⟩ := h
  exact ⟨x, y ++ v, by rw [hxy]; apply stringExt; simp⟩

theorem strContains_of_eq {s t : String} (h : s = t) : strContains s t :=
  ⟨"", "", by rw [h]; apply stringExt; simp⟩

theorem joinSnd_contains {rs : List FileRecord} {r : FileRecord} {e : String}
    (hr : r ∈ rs) (he : r.content = .error e) :
    strContains (String.join ((emitChunks rs).map Prod.snd))
      ("Error reading " ++ relPath r ++ ": " ++ e ++ "\n") := by
  induction rs with
  | nil => simp at hr
  | cons r₀ rest ih =>
      cases rest with
      | nil =>
          rcases List.mem_singleton.1 hr with rfl
          rw [emitChunks]
          simp only [List.map, String.join]
          apply strContains_of_eq
          apply stringExt
          simp [emitRecord_error_snd true r e he, printStr]
      | cons r₂ t =>
          rw [emitChunks]
          rcases List.mem_cons.1 hr with rfl | hmem
          · rw [List.map_cons, stringJoin_cons,
              emitRecord_error_snd false r e he]
            exact strContains_appendRight _ (strContains_of_eq rfl)
          · rw [List.map_cons, stringJoin_cons]
            exact strContains_appendLeft _ (ih hmem)

theorem joinFst_contains {rs : List FileRecord} {r : FileRecord} {e : String}
    (hr : r ∈ rs) (he : r.content = .error e) :
    strContains (String.join ((emitChunks rs).map Prod.fst))
      ("```" ++ "\n" ++ "[Error reading file: " ++ e ++ "]" ++ "\n" ++ "```" ++ "\n") := by
  induction rs with
  | nil => simp at hr
  | cons r₀ rest ih =>
      cases rest with
      | nil =>
          rcases List.mem_singleton.1 hr with rfl
          rw [emitChunks]
          simp only [List.map, String.join]
          rw [emitRecord_error_fst true r e he]
          simp only [if_pos rfl]
          apply strContains_of_eq
          apply stringExt
          simp
      | cons r₂ t =>
          rw [emitChunks]
          rcases List.mem_cons.1 hr with rfl | hmem
          · rw [List.map_cons, stringJoin_cons, emitRecord_error_fst false r e he]
            refine strContains_appendRight _ ?_
            simp only [if_neg Bool.false_ne_true]
            exact strContains_appendRight _ (strContains_of_eq rfl)
          · rw [List.map_cons, stringJoin_cons]
            exact strContains_appendLeft _ (ih hmem)

/-! ### The pattern list of `main` is never empty -/

theorem splitOnCharAux_ne_nil (sep : Char) (cs : List Char) :
    splitOnCharAux sep cs ≠ [] := by
  induction cs with
  | nil => simp [splitOnCharAux]
  | cons c cs ih =>
      rw [splitOnCharAux]
      by_cases h : (c == sep) = true
      · simp [h]
      · simp only [h]
        cases hr : splitOnCharAux sep cs
        · exact absurd hr ih
        · simp

theorem patterns_ne_nil (sep : Char) (s : String) : splitOnChar sep s ≠ [] := by
  unfold splitOnChar
  intro h
  exact splitOnCharAux_ne_nil sep s.data (List.map_eq_nil_iff.1 h)

end Dircat

namespace Dircat

/-! ### Claim theorems -/

/-- C1: for every directory tree and every pattern set, every file record
that appears in the output has a bare filename matching at least one
include pattern, and neither its bare filename nor its forward-slash
relative path matches any exclude pattern. -/
theorem claim_C1 (es : Fs) (inc exc : List String) (r : FileRecord)
    (hr : r ∈ outputRecords es inc exc) :
    matchesAny r.fname inc = true ∧ matchesAny r.fname exc = false ∧
      matchesAny (relPath r) exc = false := by
  have hk := mem_collectDir_keep (mem_outputRecords.1 hr)
  unfold keepFile at hk
  simp only [Bool.and_eq_true, Bool.not_eq_true', Bool.or_eq_false_iff] at hk
  exact ⟨hk.1, hk.2.1, hk.2.2⟩

theorem claim_C1_witness :
    (⟨[], "a.py", .ok "x"⟩ : FileRecord) ∈
        outputRecords (.file "a.py" (.ok "x") .nil) ["*.py"] []
  ∧ (matchesAny "a.py" ["*.py"] = true ∧ matchesAny "a.py" [] = false ∧
      matchesAny (relPath ⟨[], "a.py", .ok "x"⟩) [] = false) := by
  have hmem : (⟨[], "a.py", .ok "x"⟩ : FileRecord) ∈
      outputRecords (.file "a.py" (.ok "x") .nil) ["*.py"] [] := by
    show (⟨[], "a.py", .ok "x"⟩ : FileRecord) ∈ [⟨[], "a.py", .ok "x"⟩]
    exact List.mem_singleton.2 rfl
  exact ⟨hmem, claim_C1 (.file "a.py" (.ok "x") .nil) ["*.py"] [] _ hmem⟩

/-- C2: pruning is transitive and irrevocable: when a subdirectory at
parent chain `pre` with bare name `d` satisfies the pruning condition, no
record of the output lies anywhere beneath it, regardless of include
patterns. -/
theorem claim_C2 (es : Fs) (inc exc pre : List String) (d : String)
    (hp : pruneDir exc pre d = true) (r : FileRecord)
    (hr : r ∈ outputRecords es inc exc) (tail : List String) :
    r.dirs ≠ pre ++ d :: tail := by
  intro he
  rcases List.mem_append.1 (mem_outputRecords.1 hr) with hl | hl
  · obtain ⟨h1, _, _⟩ := mem_collectHere hl
    rw [h1] at he
    simp at he
  · have hfalse := mem_collectSubs_chain hl pre d tail he (by simp)
    rw [hfalse] at hp
    exact absurd hp (by simp)

theorem claim_C2_witness :
    pruneDir ["skip"] [] "skip" = true
  ∧ (⟨[], "keep.py", .ok "k"⟩ : FileRecord) ∈
      outputRecords
        (.file "keep.py" (.ok "k") (.dir "skip" (.file "match.py" (.ok "m") .nil) .nil))
        ["*.py"] ["skip"]
  ∧ (⟨[], "keep.py", .ok "k"⟩ : FileRecord).dirs ≠ [] ++ "skip" :: [] := by
  have hp : pruneDir ["skip"] [] "skip" = true := by decide
  have hmem : (⟨[], "keep.py", .ok "k"⟩ : FileRecord) ∈
      outputRecords
        (.file "keep.py" (.ok "k") (.dir "skip" (.file "match.py" (.ok "m") .nil) .nil))
        ["*.py"] ["skip"] := by
    show (⟨[], "keep.py", .ok "k"⟩ : FileRecord) ∈ [⟨[], "keep.py", .ok "k"⟩]
    exact List.mem_singleton.2 rfl
  exact ⟨hp, hmem,
    claim_C2 (.file "keep.py" (.ok "k") (.dir "skip" (.file "match.py" (.ok "m") .nil) .nil))
      ["*.py"] ["skip"] [] "skip" hp _ hmem []⟩

/-- C9: the leading-dot rule applies only to directories: a file whose bare
name begins with a dot and that lies in a directory reached along unpruned
steps is still collected and emitted whenever its name matches an include
pattern and neither its name nor its relative path matches an exclude
pattern. -/
theorem claim_C9 (rootEs es : Fs) (inc exc comps : List String) (n : String)
    (c : Except String String)
    (hreach : Reaches exc rootEs comps es)
    (hmem : FileAmong n c es)
    (hdot : pyStartsWith n "." = true)
    (hinc : matchesAny n inc = true)
    (hexc₁ : matchesAny n exc = false)
    (hexc₂ : matchesAny (joinComps (comps ++ [n])) exc = false) :
    (⟨comps, n, c⟩ : FileRecord) ∈ outputRecords rootEs inc exc := by
  have hk : keepFile inc exc comps n = true := by
    unfold keepFile
    simp [hinc, hexc₁, hexc₂]
  exact mem_outputRecords.2 (reaches_complete hreach
    (List.mem_append_left _ (collectHere_complete hmem hk)))

theorem claim_C9_witness :
    pyStartsWith ".env" "." = true
  ∧ (⟨["sub"], ".env", .ok "secret"⟩ : FileRecord) ∈
      outputRecords (.dir "sub" (.file ".env" (.ok "secret") .nil) .nil) ["*"] [] := by
  refine ⟨by decide, ?_⟩
  have hreach : Reaches [] (.dir "sub" (.file ".env" (.ok "secret") .nil) .nil)
      ([] ++ ["sub"]) (.file ".env" (.ok "secret") .nil) :=
    Reaches.step [] _ "sub" _ Reaches.refl (DirAmong.here .nil) (by decide)
  exact claim_C9 (.dir "sub" (.file ".env" (.ok "secret") .nil) .nil)
    (.file ".env" (.ok "secret") .nil) ["*"] [] ["sub"] ".env" (.ok "secret")
    hreach (FileAmong.here .nil) (by decide) (by decide) (by decide) (by decide)

/-- C10: the scan root itself is never pruned: the output never depends on
the root directory's own bare name, and even when that name begins with a
dot or matches an exclude pattern, the files directly inside the root that
satisfy the selection condition are still collected and emitted. -/
theorem claim_C10 (rn : String) (es : Fs) (inc exc : List String)
    (hroot : pyStartsWith rn "." = true ∨ matchesAny rn exc = true) :
    (∀ rn₂, processDirectory rn₂ es inc exc = processDirectory rn es inc exc)
  ∧ ∀ n c, FileAmong n c es → matchesAny n inc = true →
      matchesAny n exc = false → matchesAny (joinComps [n]) exc = false →
      (⟨[], n, c⟩ : FileRecord) ∈ outputRecords es inc exc := by
  constructor
  · intro rn₂
    rfl
  · intro n c hmem hinc he₁ he₂
    have hk : keepFile inc exc [] n = true := by
      unfold keepFile
      simp only [List.nil_append]
      simp [hinc, he₁, he₂]
    exact mem_outputRecords.2 (List.mem_append_left _ (collectHere_complete hmem hk))

theorem claim_C10_witness :
    (pyStartsWith ".git" "." = true ∨ matchesAny ".git" [] = true)
  ∧ processDirectory "other" (.file "a.py" (.ok "x") .nil) ["*.py"] [] =
      processDirectory ".git" (.file "a.py" (.ok "x") .nil) ["*.py"] []
  ∧ (⟨[], "a.py", .ok "x"⟩ : FileRecord) ∈
      outputRecords (.file "a.py" (.ok "x") .nil) ["*.py"] [] := by
  have hroot : pyStartsWith ".git" "." = true ∨ matchesAny ".git" [] = true :=
    Or.inl (by decide)
  have h := claim_C10 ".git" (.file "a.py" (.ok "x") .nil) ["*.py"] [] hroot
  exact ⟨hroot, h.1 "other",
    h.2 "a.py" (.ok "x") (FileAmong.here .nil) (by decide) (by decide) (by decide)⟩

end Dircat

namespace Dircat

/-- C5 counterexample: the records are sorted by `pathlib` path objects,
whose order on CPython 3.11 compares component tuples, not joined strings;
for the tree with files `a/x` and `a.b/c` the emitted order is `a/x`
before `a.b/c`, although `a.b/c` precedes `a/x` in code point order of the
relative path strings, so the emitted blocks are not in ascending code
point lexicographic order of their relative path strings. -/
theorem claim_C5_counterexample :
    ((outputRecords
        (.dir "a" (.file "x" (.ok "") .nil) (.dir "a.b" (.file "c" (.ok "") .nil) .nil))
        ["*"] []).map relPath = ["a/x", "a.b/c"])
  ∧ strLt "a.b/c" "a/x" = true
  ∧ ¬ ((outputRecords
        (.dir "a" (.file "x" (.ok "") .nil) (.dir "a.b" (.file "c" (.ok "") .nil) .nil))
        ["*"] []).map relPath).Pairwise (fun s t => strLt s t = true) := by
  refine ⟨rfl, by decide, ?_⟩
  rw [show ((outputRecords
      (.dir "a" (.file "x" (.ok "") .nil) (.dir "a.b" (.file "c" (.ok "") .nil) .nil))
      ["*"] []).map relPath) = ["a/x", "a.b/c"] from rfl]
  decide

/-- C5 as amended: for every well-formed directory tree the emitted file
records appear in strictly ascending `pathlib` path order, that is strict
lexicographic order of their relative-path component lists with components
compared by code point (the order of `PurePath` comparison on CPython
3.11; it agrees with code point order of the joined strings except across
component boundaries). -/
theorem claim_C5_amended (es : Fs) (inc exc : List String)
    (hwf : wfFs es = true) :
    ((outputRecords es inc exc).map recComps).Pairwise
      (fun a b => compsLt a b = true) := by
  rw [List.pairwise_map]
  exact outputPairwiseLt hwf

theorem claim_C5_amended_witness :
    wfFs (.dir "a" (.file "x" (.ok "") .nil) (.dir "a.b" (.file "c" (.ok "") .nil) .nil))
        = true
  ∧ ((outputRecords
        (.dir "a" (.file "x" (.ok "") .nil) (.dir "a.b" (.file "c" (.ok "") .nil) .nil))
        ["*"] []).map recComps).Pairwise (fun a b => compsLt a b = true) := by
  refine ⟨by decide, ?_⟩
  exact claim_C5_amended
    (.dir "a" (.file "x" (.ok "") .nil) (.dir "a.b" (.file "c" (.ok "") .nil) .nil))
    ["*"] [] (by decide)

/-- C7: when, after stripping whitespace from each comma-separated segment,
the include-pattern list is empty or contains only empty strings, the run
reports to the error stream, exits with code 1 and prints nothing to
standard output. -/
theorem claim_C7 (rn dirStr patternsArg : String) (es : Fs) (excl : List String)
    (hpat : ((splitOnChar ',' patternsArg).map pyStrip).isEmpty = true ∨
      ((splitOnChar ',' patternsArg).map pyStrip).all (fun p => p == "") = true) :
    mainRun (some (rn, es)) dirStr patternsArg excl =
      ⟨1, "", "Error: No patterns specified\n"⟩ := by
  have hguard : (((splitOnChar ',' patternsArg).map pyStrip).isEmpty ||
      ((splitOnChar ',' patternsArg).map pyStrip).all (fun p => p == "")) = true := by
    rcases hpat with h | h <;> simp [h]
  unfold mainRun
  simp only [hguard, if_true]
  rfl

theorem claim_C7_witness :
    (((splitOnChar ',' "  ,  ").map pyStrip).isEmpty = true ∨
      ((splitOnChar ',' "  ,  ").map pyStrip).all (fun p => p == "") = true)
  ∧ mainRun (some (".", .nil)) "." "  ,  " [] =
      ⟨1, "", "Error: No patterns specified\n"⟩ := by
  have hpat : (((splitOnChar ',' "  ,  ").map pyStrip).isEmpty = true ∨
      ((splitOnChar ',' "  ,  ").map pyStrip).all (fun p => p == "") = true) :=
    Or.inr (by decide)
  exact ⟨hpat, claim_C7 "." "." "  ,  " .nil [] hpat⟩

/-- C8: blank segments in the comma-separated include string have no
effect: on every well-formed directory tree a run with include string
`"  , *.txt ,  "` produces exactly the same result as a run with include
string `"*.txt"`. -/
theorem claim_C8 (rn dirStr : String) (es : Fs) (excl : List String)
    (hwf : wfFs es = true) :
    mainRun (some (rn, es)) dirStr "  , *.txt ,  " excl =
      mainRun (some (rn, es)) dirStr "*.txt" excl := by
  have hm : ∀ n, goodName n = true →
      matchesAny n ["", "*.txt", ""] = matchesAny n ["*.txt"] := by
    intro n hg
    have hne : n ≠ "" := by
      simp only [goodName, Bool.and_eq_true, decide_eq_true_eq] at hg
      exact hg.1
    have hempty : fnmatch n "" = false := by
      rw [fnmatch_empty_pattern]
      cases hd : n.data
      · exact absurd (stringExt (by simp [hd])) hne
      · simp
    simp [matchesAny, hempty]
  have key : processDirectory rn es ["", "*.txt", ""] excl =
      processDirectory rn es ["*.txt"] excl :=
    processDirectory_congr hm hwf
  show (⟨0, (processDirectory rn es ["", "*.txt", ""] excl).1,
          (processDirectory rn es ["", "*.txt", ""] excl).2⟩ : RunResult) =
    ⟨0, (processDirectory rn es ["*.txt"] excl).1,
        (processDirectory rn es ["*.txt"] excl).2⟩
  rw [key]

theorem claim_C8_witness :
    wfFs (.file "a.txt" (.ok "t") (.file "b.md" (.ok "m") .nil)) = true
  ∧ mainRun (some ("root", .file "a.txt" (.ok "t") (.file "b.md" (.ok "m") .nil)))
      "root" "  , *.txt ,  " [] =
    mainRun (some ("root", .file "a.txt" (.ok "t") (.file "b.md" (.ok "m") .nil)))
      "root" "*.txt" [] := by
  exact ⟨by decide,
    claim_C8 "root" "root" (.file "a.txt" (.ok "t") (.file "b.md" (.ok "m") .nil)) []
      (by decide)⟩

end Dircat

namespace Dircat

/-- C3 counterexample: the `try` block wraps the read and all success-path
printing, so when the read fails the emission for that record is only the
fenced placeholder block: it does not begin with a level-3 heading at
all. -/
theorem claim_C3_counterexample :
    (emitRecord true ⟨[], "f.py", .error "denied"⟩).1
        = "```\n[Error reading file: denied]\n```\n"
  ∧ pyStartsWith (emitRecord true ⟨[], "f.py", .error "denied"⟩).1 "### " = false := by
  exact ⟨rfl, by decide⟩

/-- C3 as amended: the heading and blank line are emitted only after a
successful read (the read precedes all printing); on a read failure the
record's emission is exactly the bare fenced placeholder block followed by
the separator, with no heading, and every record still contributes exactly
one output chunk, so the per-file record count is preserved and the fences
stay balanced. -/
theorem claim_C3_amended (isLast : Bool) (r : FileRecord) :
    (∀ content, r.content = .ok content →
        ∃ tail, (emitRecord isLast r).1 = "### " ++ relPath r ++ "\n" ++ "\n" ++ tail)
  ∧ (∀ e, r.content = .error e →
        (emitRecord isLast r).1 =
          "```" ++ "\n" ++ "[Error reading file: " ++ e ++ "]" ++ "\n" ++ "```" ++ "\n" ++
            (if isLast then "" else "\n" ++ "---" ++ "\n" ++ "\n"))
  ∧ ∀ rs : List FileRecord, (emitChunks rs).length = rs.length := by
  refine ⟨?_, ?_, emitChunks_length⟩
  · intro content hok
    refine ⟨"```" ++ languageHint (relPath r) ++ "\n" ++ content ++ "\n" ++
      (if pyEndsWith content "\n" then "" else "\n") ++ "```" ++ "\n" ++
      (if isLast then "" else "\n" ++ "---" ++ "\n" ++ "\n"), ?_⟩
    rw [emitRecord_ok_eq isLast r content hok]
    apply stringExt
    simp
  · intro e herr
    exact emitRecord_error_fst isLast r e herr

theorem claim_C3_amended_witness :
    (∃ tail, (emitRecord true ⟨[], "a.py", .ok "hi"⟩).1 =
        "### " ++ relPath ⟨[], "a.py", .ok "hi"⟩ ++ "\n" ++ "\n" ++ tail)
  ∧ (emitRecord true ⟨[], "f.py", .error "denied"⟩).1 =
      "```" ++ "\n" ++ "[Error reading file: " ++ "denied" ++ "]" ++ "\n" ++ "```" ++ "\n" ++
        (if true then "" else "\n" ++ "---" ++ "\n" ++ "\n")
  ∧ (emitChunks [⟨[], "a.py", .ok "hi"⟩]).length = [(⟨[], "a.py", .ok "hi"⟩ : FileRecord)].length := by
  refine ⟨(claim_C3_amended true ⟨[], "a.py", .ok "hi"⟩).1 "hi" rfl, ?_, ?_⟩
  · exact (claim_C3_amended true ⟨[], "f.py", .error "denied"⟩).2.1 "denied" rfl
  · exact (claim_C3_amended true ⟨[], "a.py", .ok "hi"⟩).2.2 [⟨[], "a.py", .ok "hi"⟩]

/-- C4 counterexample: `print(content)` always appends a newline, so even
when the content already ends in a newline a blank line separates the
content from the closing fence: for content `"x\n"` the emitted block is
not the claimed fence, content, closing fence without a blank line. -/
theorem claim_C4_counterexample :
    (emitRecord true ⟨[], "a.py", .ok "x\n"⟩).1 = "### a.py\n\n```python\nx\n\n```\n"
  ∧ (emitRecord true ⟨[], "a.py", .ok "x\n"⟩).1 ≠
      "### a.py\n\n" ++ "```python\n" ++ "x\n" ++ "```\n" := by
  exact ⟨rfl, by decide⟩

/-- C4 as amended: for every successfully read file the emitted block is
the opening fence with the language hint, the content verbatim, one
newline, one extra newline exactly when the content does not already end
in a newline, and the closing fence on its own line; consequently the
closing fence is always preceded by the newline that `print` appends to
the content. -/
theorem claim_C4_amended (isLast : Bool) (r : FileRecord) (content : String)
    (h : r.content = .ok content) :
    (emitRecord isLast r).1 =
      "### " ++ relPath r ++ "\n" ++ "\n" ++
        "```" ++ languageHint (relPath r) ++ "\n" ++
        content ++ "\n" ++
        (if pyEndsWith content "\n" then "" else "\n") ++
        "```" ++ "\n" ++
        (if isLast then "" else "\n" ++ "---" ++ "\n" ++ "\n") :=
  emitRecord_ok_eq isLast r content h

theorem claim_C4_amended_witness :
    (⟨[], "b.md", .ok "# hi"⟩ : FileRecord).content = .ok "# hi"
  ∧ (emitRecord true ⟨[], "b.md", .ok "# hi"⟩).1 =
      "### " ++ relPath ⟨[], "b.md", .ok "# hi"⟩ ++ "\n" ++ "\n" ++
        "```" ++ languageHint (relPath ⟨[], "b.md", .ok "# hi"⟩) ++ "\n" ++
        "# hi" ++ "\n" ++
        (if pyEndsWith "# hi" "\n" then "" else "\n") ++
        "```" ++ "\n" ++
        (if true then "" else "\n" ++ "---" ++ "\n" ++ "\n") :=
  ⟨rfl, claim_C4_amended true ⟨[], "b.md", .ok "# hi"⟩ "# hi" rfl⟩

/-- C6: a read failure on a single file never aborts the run: the process
exit code stays 0, every collected record still contributes exactly one
output chunk, the error stream contains a diagnostic naming the offending
relative path and the error, and the standard output contains the fenced
placeholder block. -/
theorem claim_C6 (rn dirStr patternsArg : String) (es : Fs) (excl : List String)
    (r : FileRecord) (e : String)
    (hpat : (((splitOnChar ',' patternsArg).map pyStrip).all (fun p => p == "")) = false)
    (hr : r ∈ outputRecords es ((splitOnChar ',' patternsArg).map pyStrip) excl)
    (he : r.content = .error e) :
    (mainRun (some (rn, es)) dirStr patternsArg excl).exitCode = 0
  ∧ (emitChunks (outputRecords es ((splitOnChar ',' patternsArg).map pyStrip) excl)).length
      = (outputRecords es ((splitOnChar ',' patternsArg).map pyStrip) excl).length
  ∧ strContains (mainRun (some (rn, es)) dirStr patternsArg excl).stderr
      ("Error reading " ++ relPath r ++ ": " ++ e ++ "\n")
  ∧ strContains (mainRun (some (rn, es)) dirStr patternsArg excl).stdout
      ("```" ++ "\n" ++ "[Error reading file: " ++ e ++ "]" ++ "\n" ++ "```" ++ "\n") := by
  have hne : (splitOnChar ',' patternsArg).map pyStrip ≠ [] := by
    intro h
    exact patterns_ne_nil ',' patternsArg (List.map_eq_nil_iff.1 h)
  have hie : ((splitOnChar ',' patternsArg).map pyStrip).isEmpty = false := by
    cases hl : (splitOnChar ',' patternsArg).map pyStrip
    · exact absurd hl hne
    · rfl
  have hguard : (((splitOnChar ',' patternsArg).map pyStrip).isEmpty ||
      ((splitOnChar ',' patternsArg).map pyStrip).all (fun p => p == "")) = false := by
    rw [hie, hpat]
    rfl
  have hmain : mainRun (some (rn, es)) dirStr patternsArg excl =
      ⟨0, (processDirectory rn es ((splitOnChar ',' patternsArg).map pyStrip) excl).1,
        (processDirectory rn es ((splitOnChar ',' patternsArg).map pyStrip) excl).2⟩ := by
    unfold mainRun
    simp only [hguard, Bool.false_eq_true, if_false]
  refine ⟨by rw [hmain], emitChunks_length _, ?_, ?_⟩
  · rw [hmain]
    show strContains (String.join ((emitChunks
      (outputRecords es ((splitOnChar ',' patternsArg).map pyStrip) excl)).map Prod.snd)) _
    exact joinSnd_contains hr he
  · rw [hmain]
    show strContains (String.join ((emitChunks
      (outputRecords es ((splitOnChar ',' patternsArg).map pyStrip) excl)).map Prod.fst)) _
    exact joinFst_contains hr he

theorem claim_C6_witness :
    (((splitOnChar ',' "*.py").map pyStrip).all (fun p => p == "")) = false
  ∧ (⟨[], "bad.py", .error "denied"⟩ : FileRecord) ∈
      outputRecords (.file "bad.py" (.error "denied") .nil)
        ((splitOnChar ',' "*.py").map pyStrip) []
  ∧ (mainRun (some ("root", .file "bad.py" (.error "denied") .nil)) "root" "*.py" []).exitCode = 0
  ∧ strContains
      (mainRun (some ("root", .file "bad.py" (.error "denied") .nil)) "root" "*.py" []).stderr
      ("Error reading " ++ relPath ⟨[], "bad.py", .error "denied"⟩ ++ ": " ++ "denied" ++ "\n")
  ∧ strContains
      (mainRun (some ("root", .file "bad.py" (.error "denied") .nil)) "root" "*.py" []).stdout
      ("```" ++ "\n" ++ "[Error reading file: " ++ "denied" ++ "]" ++ "\n" ++ "```" ++ "\n") := by
  have hpat : (((splitOnChar ',' "*.py").map pyStrip).all (fun p => p == "")) = false := by
    decide
  have hr : (⟨[], "bad.py", .error "denied"⟩ : FileRecord) ∈
      outputRecords (.file "bad.py" (.error "denied") .nil)
        ((splitOnChar ',' "*.py").map pyStrip) [] := by
    show (⟨[], "bad.py", .error "denied"⟩ : FileRecord) ∈ [⟨[], "bad.py", .error "denied"⟩]
    exact List.mem_singleton.2 rfl
  have h := claim_C6 "root" "root" "*.py" (.file "bad.py" (.error "denied") .nil) []
    ⟨[], "bad.py", .error "denied"⟩ "denied" hpat hr rfl
  exact ⟨hpat, hr, h.1, h.2.2.1, h.2.2.2⟩

end Dircat
